import Mathlib

/-!
Verification of the claircore enrichment store
(internal/vulnstore/postgres/enrichment.go).

Shallow embedding of the versioned, content-addressed enrichment store:
the three relational tables (`update_operation`, `enrichment`, `uo_enrich`),
the writer `UpdateEnrichments`, the content hasher `hashEnrichment`, and the
reader `GetEnrichment`, each translated from the Go source and the SQL text
embedded in it.

Modelling conventions:
* Byte strings (Go `[]byte`) are `List Nat`.
* `uuid.UUID` references are `Nat`, drawn from a counter, since only
  freshness and identity matter.
* The MD5 accumulator (`crypto/md5`, an external library) is abstracted by
  its input stream: the modelled digest is the exact byte stream the Go code
  feeds into `md5.New()` (each sorted tag followed by a 0x00 separator, then
  the payload).  Equal streams yield equal MD5 digests, which is the only
  property the dedup key relies on; the spec assumes practical
  collision-resistance, so unequal streams are modelled as unequal digests.
* `sort.Strings` sorts a string slice in place into lexicographic byte
  order.  UTF-8 byte order coincides with codepoint order, so the order is
  modelled as the lexicographic order `tagLe` on codepoint lists, and the
  result of the sort as `List.insertionSort tagLe` (every sorting algorithm
  produces the same sorted permutation).  The in-place mutation is modelled
  by returning the updated record alongside the digest.
* The Go code issues some statements on the connection pool `s.pool`
  (autocommitted immediately) and others on the transaction `tx` (visible
  only after `Commit`, discarded by `Rollback`).  The model keeps this
  distinction: pool statements update the committed database directly, while
  transaction work is applied only on the commit path.
-/

namespace Claircore

/-- Model of `driver.EnrichmentRecord`: the caller-facing record, a tag list
and an opaque payload (Go field `Enrichment []byte`). -/
structure EnrichmentRecord where
  Tags : List String
  Enrichment : List Nat
deriving Repr, DecidableEq

/-- Codepoints of a string, standing for the bytes `io.WriteString` feeds to
the digest (UTF-8 byte order and codepoint order agree). -/
def strBytes (s : String) : List Nat :=
  s.data.map Char.toNat

/-- Lexicographic order on codepoint lists: the order `sort.Strings` sorts
by (bytewise comparison of Go strings). -/
def lexLe : List Nat → List Nat → Bool
  | [], _ => true
  | _ :: _, [] => false
  | a :: as, b :: bs =>
    if a < b then true
    else if b < a then false
    else lexLe as bs

/-- The string order used by `sort.Strings`, via `strBytes`. -/
def tagLe (a b : String) : Prop :=
  lexLe (strBytes a) (strBytes b) = true

instance : DecidableRel tagLe := fun _ _ => instDecidableEqBool _ _

/-- Result of `sort.Strings`: the `tagLe`-sorted permutation of the input
slice. -/
def sortStrings (l : List String) : List String :=
  l.insertionSort tagLe

/-- Model of `hashEnrichment`: sorts the record's tags in place
(`sort.Strings(r.Tags)`), then hashes each tag followed by a single 0x00
separator and finally the payload.  Returns the algorithm identifier
`"md5"`, the digest (modelled by the hashed byte stream), and the record as
it stands after the call: its `Tags` slice has been sorted in place. -/
def hashEnrichment (r : EnrichmentRecord) : String × List Nat × EnrichmentRecord :=
  ("md5",
   ((sortStrings r.Tags).flatMap fun t => strBytes t ++ [0]) ++ r.Enrichment,
   { r with Tags := sortStrings r.Tags })

/-- Row of the `update_operation` table: serial `id` (the sequence number),
generated `ref`, `updater`, `fingerprint`, and the `kind` tag. -/
structure UpdateOperationRow where
  id : Nat
  ref : Nat
  updater : String
  fingerprint : String
  kind : String
deriving Repr, DecidableEq

/-- Row of the `enrichment` table: serial `id`, dedup key
(`hash_kind`, `hash`), owning `updater`, `tags`, payload `data`. -/
structure EnrichmentRow where
  id : Nat
  hash_kind : String
  hash : List Nat
  updater : String
  tags : List String
  data : List Nat
deriving Repr, DecidableEq

/-- Row of the `uo_enrich` association table: `enrich` references an
`enrichment.id`, `uo` references an `update_operation.id`.  The `date`
column (`transaction_timestamp()`) plays no role in any query of this
fragment and is omitted. -/
structure UoEnrichRow where
  enrich : Nat
  updater : String
  uo : Nat
deriving Repr, DecidableEq

/-- The committed database state: the three tables plus the generators for
serial ids and `ref` identifiers. -/
structure DB where
  update_operation : List UpdateOperationRow
  enrichment : List EnrichmentRow
  uo_enrich : List UoEnrichRow
  nextUoId : Nat
  nextEnrichId : Nat
  nextRef : Nat
deriving Repr, DecidableEq

/-- The empty database. -/
def DB.empty : DB :=
  ⟨[], [], [], 1, 1, 1⟩

/-- The `insert` statement of `UpdateEnrichments`:
`INSERT INTO enrichment (hash_kind, hash, updater, tags, data) VALUES ...
ON CONFLICT (hash_kind, hash) DO NOTHING`.
The conflict target is `(hash_kind, hash)` only — the `updater` column is
not part of it, so the insert is a no-op whenever any row with the same
dedup key exists, whatever its updater. -/
def insertEnrichment (db : DB) (hk : String) (h : List Nat) (updater : String)
    (tags : List String) (data : List Nat) : DB :=
  if db.enrichment.any fun e => e.hash_kind == hk && e.hash == h then db
  else
    { db with
      enrichment := db.enrichment ++ [⟨db.nextEnrichId, hk, h, updater, tags, data⟩],
      nextEnrichId := db.nextEnrichId + 1 }

/-- The scalar subquery of the `assoc` statement:
`SELECT id FROM enrichment WHERE hash_kind = $1 AND hash = $2 AND updater = $3`. -/
def lookupEnrichId (db : DB) (hk : String) (h : List Nat) (updater : String) : Option Nat :=
  (db.enrichment.find? fun e => e.hash_kind == hk && e.hash == h && e.updater == updater).map
    (·.id)

/-- The `assoc` statement of `UpdateEnrichments`:
`INSERT INTO uo_enrich (enrich, updater, uo, date) VALUES ((SELECT id FROM
enrichment WHERE ...), $3, $4, transaction_timestamp()) ON CONFLICT DO
NOTHING`.  When the subquery finds a row, the association is inserted unless
the `(enrich, uo)` pair is already present (the bare `ON CONFLICT DO
NOTHING` swallows the uniqueness conflict).  When the subquery finds nothing
it yields SQL NULL and no association row referencing an enrichment results
(modelled as recording nothing). -/
def insertAssoc (db : DB) (hk : String) (h : List Nat) (updater : String)
    (uoId : Nat) : DB :=
  match lookupEnrichId db hk h updater with
  | none => db
  | some eid =>
    if db.uo_enrich.any fun a => a.enrich == eid && a.uo == uoId then db
    else { db with uo_enrich := db.uo_enrich ++ [⟨eid, updater, uoId⟩] }

/-- One iteration of the loop `for i := range es`: hash the record (which
sorts `es[i].Tags` in place), queue its `insert` — note the queued `tags`
argument is the already-sorted `es[i].Tags` — then queue its `assoc`.
The queued statements execute inside the transaction in order, so each sees
the effect of the previous ones. -/
def processRecord (name : String) (uoId : Nat) (db : DB) (r : EnrichmentRecord) : DB :=
  let (hk, h, r2) := hashEnrichment r
  insertAssoc (insertEnrichment db hk h name r2.Tags r2.Enrichment) hk h name uoId

/-- Failure injection points of an `UpdateEnrichments` call: the `create`
statement, `batch.Queue` for record `i` (its insert or its association),
`batch.Done`, or `tx.Commit`. -/
inductive UpdateFailure where
  | atCreate
  | atQueue (i : Nat)
  | atDone
  | atCommit
deriving Repr, DecidableEq

/-- Model of `UpdateEnrichments(ctx, name, fp, es)`, with an explicit
failure-injection argument standing for the store errors the Go code
checks.

Faithful to the source's pool/transaction split:
* the `create` statement runs on `s.pool.QueryRow` — not on `tx` — so the
  new `update_operation` row is committed immediately, before any batch
  work, and survives a later `tx.Rollback`;
* the `insert` and `assoc` statements are queued on
  `microbatch.NewInsert(tx, 2000, time.Minute)` and take effect only if
  `tx.Commit` succeeds; on any failure after the `create`, the early
  `return` fires the deferred `tx.Rollback` and they are discarded.

Returns the committed database together with `some ref` on success and
`none` on failure (`uuid.Nil, err`). -/
def updateEnrichmentsWith (db : DB) (name fp : String) (es : List EnrichmentRecord)
    (fail : Option UpdateFailure) : DB × Option Nat :=
  match fail with
  | some .atCreate => (db, none)
  | _ =>
    let id := db.nextUoId
    let ref := db.nextRef
    let db1 : DB :=
      { db with
        update_operation := db.update_operation ++ [⟨id, ref, name, fp, "enrichment"⟩],
        nextUoId := id + 1,
        nextRef := ref + 1 }
    match fail with
    | none => (es.foldl (processRecord name id) db1, some ref)
    | _ => (db1, none)

/-- Model of `UpdateEnrichments` on the error-free path. -/
def updateEnrichments (db : DB) (name fp : String) (es : List EnrichmentRecord) :
    DB × Option Nat :=
  updateEnrichmentsWith db name fp es none

/-- Postgres array-overlap operator `a && b`: true iff the arrays share an
element (false whenever either side is empty). -/
def overlaps (a b : List String) : Bool :=
  a.any fun t => b.contains t

/-- The `latest` CTE of `GetEnrichment`:
`SELECT max(id) FROM update_operation WHERE updater = $1` — NULL (here
`none`) when the updater has no rows.  No filter on `kind`. -/
def latestId (db : DB) (name : String) : Option Nat :=
  ((db.update_operation.filter fun o => o.updater == name).map (·.id)).max?

/-- Model of `GetEnrichment(ctx, name, tags)`: the single query
`SELECT e.tags, e.data FROM enrichment e, uo_enrich uo, latest
WHERE uo.uo = latest.id AND uo.enrich = e.id AND e.tags && $2::text[]`,
a nested-loop join against the committed state.  When the CTE's `max(id)` is
NULL the join condition `uo.uo = latest.id` holds of no row and the result
is the empty (non-nil) slice, with no error. -/
def getEnrichment (db : DB) (name : String) (tags : List String) :
    List EnrichmentRecord :=
  match latestId db name with
  | none => []
  | some lid =>
    db.enrichment.flatMap fun e =>
      db.uo_enrich.filterMap fun uo =>
        if uo.uo == lid && uo.enrich == e.id && overlaps e.tags tags then
          some ⟨e.tags, e.data⟩
        else none

/-! Concrete scenario used by several witnesses: updater `"u"` ingests
record `rA` in run 1, then `rB` in run 2; a failing call sits in between
where needed. -/

/-- A record with tag `"a"` and payload byte 88. -/
def rA : EnrichmentRecord := ⟨["a"], [88]⟩

/-- A record with tag `"b"` and payload byte 89. -/
def rB : EnrichmentRecord := ⟨["b"], [89]⟩

/-- State after run 1: `UpdateEnrichments("u", "fp1", [rA])` from empty. -/
def dbRun1 : DB := (updateEnrichments DB.empty "u" "fp1" [rA]).1

/-- State after a second, failing call: `UpdateEnrichments("u", "fp2",
[rA, rB])` whose batch flush (`batch.Done`) fails. -/
def dbFailed : DB := (updateEnrichmentsWith dbRun1 "u" "fp2" [rA, rB] (some .atDone)).1

/-- State after a successful run 2: `UpdateEnrichments("u", "fp2", [rB])`
on top of run 1. -/
def dbRun2 : DB := (updateEnrichments dbRun1 "u" "fp2" [rB]).1

/-! Order theory of the sort comparison, needed to relate sorting to tag
permutations. -/

theorem lexLe_cons_cons (a b : Nat) (as bs : List Nat) :
    lexLe (a :: as) (b :: bs) =
      if a < b then true else if b < a then false else lexLe as bs := rfl

theorem lexLe_total : ∀ x y : List Nat, lexLe x y = true ∨ lexLe y x = true
  | [], _ => Or.inl rfl
  | _ :: _, [] => Or.inr rfl
  | a :: as, b :: bs => by
    rcases Nat.lt_trichotomy a b with hab | hab | hab
    · left
      rw [lexLe_cons_cons]
      simp [hab]
    · subst hab
      rcases lexLe_total as bs with h | h
      · left
        rw [lexLe_cons_cons]
        simp [Nat.lt_irrefl, h]
      · right
        rw [lexLe_cons_cons]
        simp [Nat.lt_irrefl, h]
    · right
      rw [lexLe_cons_cons]
      simp [hab]

theorem lexLe_trans : ∀ x y z : List Nat,
    lexLe x y = true → lexLe y z = true → lexLe x z = true
  | [], _, _, _, _ => rfl
  | _ :: _, [], _, hxy, _ => by simp [lexLe] at hxy
  | _ :: _, _ :: _, [], _, hyz => by simp [lexLe] at hyz
  | a :: as, b :: bs, c :: cs, hxy, hyz => by
    rcases Nat.lt_trichotomy a b with hab | hab | hab
    · rcases Nat.lt_trichotomy b c with hbc | hbc | hbc
      · rw [lexLe_cons_cons]
        simp [Nat.lt_trans hab hbc]
      · subst hbc
        rw [lexLe_cons_cons]
        simp [hab]
      · rw [lexLe_cons_cons] at hyz
        simp [Nat.lt_asymm hbc, hbc] at hyz
    · subst hab
      rw [lexLe_cons_cons] at hxy
      simp only [Nat.lt_irrefl, if_false] at hxy
      rcases Nat.lt_trichotomy a c with hac | hac | hac
      · rw [lexLe_cons_cons]
        simp [hac]
      · subst hac
        rw [lexLe_cons_cons] at hyz ⊢
        simp only [Nat.lt_irrefl, if_false] at hyz ⊢
        exact lexLe_trans as bs cs hxy hyz
      · rw [lexLe_cons_cons] at hyz
        simp [Nat.lt_asymm hac, hac] at hyz
    · rw [lexLe_cons_cons] at hxy
      simp [Nat.lt_asymm hab, hab] at hxy

theorem lexLe_antisymm : ∀ x y : List Nat,
    lexLe x y = true → lexLe y x = true → x = y
  | [], [], _, _ => rfl
  | [], _ :: _, _, hyx => by simp [lexLe] at hyx
  | _ :: _, [], hxy, _ => by simp [lexLe] at hxy
  | a :: as, b :: bs, hxy, hyx => by
    rcases Nat.lt_trichotomy a b with hab | hab | hab
    · rw [lexLe_cons_cons] at hyx
      simp [Nat.lt_asymm hab, hab] at hyx
    · subst hab
      rw [lexLe_cons_cons] at hxy hyx
      simp only [Nat.lt_irrefl, if_false] at hxy hyx
      rw [lexLe_antisymm as bs hxy hyx]
    · rw [lexLe_cons_cons] at hxy
      simp [Nat.lt_asymm hab, hab] at hxy

theorem strBytes_injective : Function.Injective strBytes := by
  intro a b h
  have hdata : a.data = b.data := by
    have : Function.Injective Char.toNat := by
      intro c d hcd
      exact Char.ext (UInt32.ext hcd)
    exact List.map_injective_iff.mpr this h
  cases a
  cases b
  exact congrArg String.mk hdata

instance : IsTotal String tagLe :=
  ⟨fun a b => lexLe_total (strBytes a) (strBytes b)⟩

instance : IsTrans String tagLe :=
  ⟨fun _ _ _ hab hbc => lexLe_trans _ _ _ hab hbc⟩

instance : IsAntisymm String tagLe :=
  ⟨fun _ _ hab hba => strBytes_injective (lexLe_antisymm _ _ hab hba)⟩

theorem sortStrings_perm (l : List String) : List.Perm (sortStrings l) l :=
  List.perm_insertionSort tagLe l

theorem sortStrings_sorted (l : List String) : List.Sorted tagLe (sortStrings l) :=
  List.sorted_insertionSort tagLe l

theorem sortStrings_eq_of_perm {a b : List String} (h : List.Perm a b) :
    sortStrings a = sortStrings b :=
  List.eq_of_perm_of_sorted
    ((sortStrings_perm a).trans (h.trans (sortStrings_perm b).symm))
    (sortStrings_sorted a) (sortStrings_sorted b)

/-! Helpers about the store operations. -/

/-- The no-two-rows-share-a-dedup-key relation enforced by the unique index
behind `ON CONFLICT (hash_kind, hash)`. -/
def hashDisjoint (a b : EnrichmentRow) : Prop :=
  ¬(a.hash_kind = b.hash_kind ∧ a.hash = b.hash)

instance : DecidableRel hashDisjoint := fun a b =>
  inferInstanceAs (Decidable (¬(a.hash_kind = b.hash_kind ∧ a.hash = b.hash)))

theorem hashDisjoint_symm : Symmetric hashDisjoint := by
  intro a b hab hba
  exact hab ⟨hba.1.symm, hba.2.symm⟩

theorem find?_eq_some_of_unique {α : Type} (p : α → Bool) (x : α) :
    ∀ l : List α, x ∈ l → p x = true → (∀ y ∈ l, p y = true → y = x) →
      l.find? p = some x
  | [], hx, _, _ => absurd hx (List.not_mem_nil x)
  | a :: l, hx, hpx, huniq => by
    by_cases hpa : p a = true
    · rw [List.find?_cons_of_pos _ hpa, huniq a (List.mem_cons_self a l) hpa]
    · have hxl : x ∈ l := by
        rcases List.mem_cons.mp hx with h | h
        · subst h
          exact absurd hpx hpa
        · exact h
      rw [List.find?_cons_of_neg _ (by simpa using hpa)]
      exact find?_eq_some_of_unique p x l hxl hpx
        fun y hy hpy => huniq y (List.mem_cons_of_mem a hy) hpy

/-- The `insert` statement is a no-op when a row with the same dedup key is
already present (the `ON CONFLICT (hash_kind, hash) DO NOTHING` branch). -/
theorem insertEnrichment_conflict (db : DB) (hk : String) (h : List Nat)
    (u : String) (tags : List String) (data : List Nat) (e : EnrichmentRow)
    (he : e ∈ db.enrichment) (h1 : e.hash_kind = hk) (h2 : e.hash = h) :
    insertEnrichment db hk h u tags data = db := by
  unfold insertEnrichment
  have : (db.enrichment.any fun x => x.hash_kind == hk && x.hash == h) = true := by
    rw [List.any_eq_true]
    exact ⟨e, he, by simp [h1, h2]⟩
  simp [this]

/-- When dedup keys are unique in the table, the `assoc` subquery resolves
exactly the row carrying the key (scoped to the updater). -/
theorem lookupEnrichId_eq (db : DB) (hk : String) (h : List Nat) (u : String)
    (e : EnrichmentRow) (hpw : List.Pairwise hashDisjoint db.enrichment)
    (he : e ∈ db.enrichment) (h1 : e.hash_kind = hk) (h2 : e.hash = h)
    (h3 : e.updater = u) :
    lookupEnrichId db hk h u = some e.id := by
  unfold lookupEnrichId
  rw [find?_eq_some_of_unique _ e db.enrichment he (by simp [h1, h2, h3]) ?uniq]
  · rfl
  case uniq =>
    intro y hy hpy
    simp only [Bool.and_eq_true, beq_iff_eq] at hpy
    by_contra hne
    exact hpw.forall hashDisjoint_symm hy he hne
      ⟨hpy.1.1.trans h1.symm, hpy.1.2.trans h2.symm⟩

/-- The `assoc` statement appends a fresh association when the subquery
resolves a row and the `(enrich, uo)` pair is new. -/
theorem insertAssoc_append (db : DB) (hk : String) (h : List Nat) (u : String)
    (uoId : Nat) (eid : Nat) (hfind : lookupEnrichId db hk h u = some eid)
    (hfresh : ∀ a ∈ db.uo_enrich, a.uo ≠ uoId) :
    insertAssoc db hk h u uoId =
      { db with uo_enrich := db.uo_enrich ++ [⟨eid, u, uoId⟩] } := by
  unfold insertAssoc
  rw [hfind]
  have : (db.uo_enrich.any fun a => a.enrich == eid && a.uo == uoId) = false := by
    rw [List.any_eq_false]
    intro a ha
    simp [hfresh a ha]
  simp [this]

/-! Claim theorems. -/

/-- C6: two enrichment records with the same payload and tag sets that are
permutations of each other receive the same dedup key from
`hashEnrichment` — both the algorithm identifier and the digest agree, so
the hash is independent of the input order of the tags. -/
theorem hashEnrichment_tag_order_independent (r1 r2 : EnrichmentRecord)
    (hperm : List.Perm r1.Tags r2.Tags) (hpay : r1.Enrichment = r2.Enrichment) :
    (hashEnrichment r1).1 = (hashEnrichment r2).1 ∧
    (hashEnrichment r1).2.1 = (hashEnrichment r2).2.1 := by
  unfold hashEnrichment
  rw [sortStrings_eq_of_perm hperm, hpay]
  exact ⟨rfl, rfl⟩

/-- Witness for C6 at the spec's own example: tags `["b","a"]` versus
`["a","b"]` with identical payload hash to the same dedup key. -/
theorem hashEnrichment_tag_order_independent_witness :
    List.Perm ["b", "a"] ["a", "b"] ∧
    ((hashEnrichment ⟨["b", "a"], [88]⟩).1 = (hashEnrichment ⟨["a", "b"], [88]⟩).1 ∧
     (hashEnrichment ⟨["b", "a"], [88]⟩).2.1 = (hashEnrichment ⟨["a", "b"], [88]⟩).2.1) :=
  ⟨List.Perm.swap "a" "b" [],
   hashEnrichment_tag_order_independent ⟨["b", "a"], [88]⟩ ⟨["a", "b"], [88]⟩
     (List.Perm.swap "a" "b" []) rfl⟩

/-- C7 as stated is false: `hashEnrichment` is not side-effect free on its
argument.  `sort.Strings(r.Tags)` sorts the caller's tag slice in place, so
after hashing the record `{Tags: ["b","a"], Enrichment: [88]}` the record
differs from its original value (its tags now read `["a","b"]`). -/
theorem hashEnrichment_mutates_tag_order :
    (hashEnrichment ⟨["b", "a"], [88]⟩).2.2 ≠ ⟨["b", "a"], [88]⟩ := by
  decide

/-- C7 amended: `hashEnrichment` is deterministic and leaves the record's
payload and tag multiset unchanged, but it sorts the tag list in place: the
record's tag order after the call is the `tagLe`-sorted one rather than the
input order. -/
theorem hashEnrichment_frame :
    ∀ r : EnrichmentRecord,
      (hashEnrichment r).2.2.Enrichment = r.Enrichment ∧
      List.Perm (hashEnrichment r).2.2.Tags r.Tags ∧
      List.Sorted tagLe (hashEnrichment r).2.2.Tags :=
  fun r => ⟨rfl, sortStrings_perm r.Tags, sortStrings_sorted r.Tags⟩

/-- C8: an `UpdateEnrichments` call with an empty records batch succeeds on
the error-free path: the generated reference is returned, a run row with
kind `"enrichment"` is committed, and no association (and no enrichment
row) is added. -/
theorem updateEnrichments_empty_batch (db : DB) (name fp : String) :
    (updateEnrichments db name fp []).2 = some db.nextRef ∧
    (updateEnrichments db name fp []).1.update_operation =
      db.update_operation ++ [⟨db.nextUoId, db.nextRef, name, fp, "enrichment"⟩] ∧
    (updateEnrichments db name fp []).1.uo_enrich = db.uo_enrich ∧
    (updateEnrichments db name fp []).1.enrichment = db.enrichment :=
  ⟨rfl, rfl, rfl, rfl⟩

/-- C9: a `GetEnrichment` query for an updater with no runs returns the
empty collection (the `latest` CTE yields NULL, the join matches nothing,
and the Go code returns the empty slice with a nil error). -/
theorem getEnrichment_no_runs (db : DB) (u : String) (tags : List String)
    (h : db.update_operation.filter (fun o => o.updater == u) = []) :
    getEnrichment db u tags = [] := by
  unfold getEnrichment latestId
  rw [h]
  rfl

/-- Witness for C9: querying the empty store returns the empty collection. -/
theorem getEnrichment_no_runs_witness :
    (DB.empty.update_operation.filter (fun o => o.updater == "u") = []) ∧
    getEnrichment DB.empty "u" ["a"] = [] :=
  ⟨rfl, getEnrichment_no_runs DB.empty "u" ["a"] rfl⟩

/-- C10: a `GetEnrichment` query with an empty filter tag set returns the
empty collection whatever the state of the store: the array-overlap test
`e.tags && ARRAY[]` is always false. -/
theorem getEnrichment_empty_filter (db : DB) (u : String) :
    getEnrichment db u [] = [] := by
  unfold getEnrichment
  cases latestId db u with
  | none => rfl
  | some lid =>
    have hov : ∀ t : List String, overlaps t [] = false := fun t => by
      simp [overlaps]
    simp [hov]

/-- C2 fails on the code at its last sentence: dedup is NOT scoped per
updater.  The `ON CONFLICT (hash_kind, hash) DO NOTHING` target omits the
`updater` column, so ingesting the same content `{tags: ["a"], payload:
[88]}` first for updater `"A"` and then for updater `"B"` leaves exactly
one stored enrichment row (owned by `"A"`) — not the two records the claim
asserts. -/
theorem enrichment_dedup_not_per_updater :
    ((updateEnrichments (updateEnrichments DB.empty "A" "f1" [⟨["a"], [88]⟩]).1
        "B" "f2" [⟨["a"], [88]⟩]).1.enrichment.length = 1) ∧
    ((updateEnrichments (updateEnrichments DB.empty "A" "f1" [⟨["a"], [88]⟩]).1
        "B" "f2" [⟨["a"], [88]⟩]).1.enrichment.map (·.updater) = ["A"]) := by
  decide

/-- C2 amended: the dedup key `(hash_kind, hash)` is unique globally (not
per updater).  Re-ingesting, for the same updater, content whose key is
already stored for that updater is a no-op on the `enrichment` table — the
existing row is kept and no error arises — and the one existing physical
row is associated with the new run: the call succeeds and appends exactly
the association `(existing row id, updater, new run id)`. -/
theorem enrichment_reingest_same_updater (db : DB) (u fp : String)
    (r : EnrichmentRecord) (e : EnrichmentRow)
    (hpw : List.Pairwise hashDisjoint db.enrichment)
    (hfresh : ∀ a ∈ db.uo_enrich, a.uo ≠ db.nextUoId)
    (he : e ∈ db.enrichment) (h1 : e.hash_kind = (hashEnrichment r).1)
    (h2 : e.hash = (hashEnrichment r).2.1) (h3 : e.updater = u) :
    (updateEnrichments db u fp [r]).1.enrichment = db.enrichment ∧
    (updateEnrichments db u fp [r]).1.uo_enrich =
      db.uo_enrich ++ [⟨e.id, u, db.nextUoId⟩] ∧
    (updateEnrichments db u fp [r]).2 = some db.nextRef := by
  have hdb : (updateEnrichments db u fp [r]).1 =
      { db with
        update_operation := db.update_operation ++
          [⟨db.nextUoId, db.nextRef, u, fp, "enrichment"⟩],
        uo_enrich := db.uo_enrich ++ [⟨e.id, u, db.nextUoId⟩],
        nextUoId := db.nextUoId + 1,
        nextRef := db.nextRef + 1 } := by
    show insertAssoc
        (insertEnrichment
          { db with
            update_operation := db.update_operation ++
              [⟨db.nextUoId, db.nextRef, u, fp, "enrichment"⟩],
            nextUoId := db.nextUoId + 1,
            nextRef := db.nextRef + 1 }
          (hashEnrichment r).1 (hashEnrichment r).2.1 u
          (hashEnrichment r).2.2.Tags (hashEnrichment r).2.2.Enrichment)
        (hashEnrichment r).1 (hashEnrichment r).2.1 u db.nextUoId = _
    rw [insertEnrichment_conflict
        { db with
          update_operation := db.update_operation ++
            [⟨db.nextUoId, db.nextRef, u, fp, "enrichment"⟩],
          nextUoId := db.nextUoId + 1,
          nextRef := db.nextRef + 1 }
        _ _ _ _ _ e (by exact he) h1 h2,
      insertAssoc_append
        { db with
          update_operation := db.update_operation ++
            [⟨db.nextUoId, db.nextRef, u, fp, "enrichment"⟩],
          nextUoId := db.nextUoId + 1,
          nextRef := db.nextRef + 1 }
        _ _ _ _ e.id
        (lookupEnrichId_eq _ _ _ _ e (by exact hpw) (by exact he) h1 h2 h3)
        (by exact hfresh)]
  exact ⟨by rw [hdb], by rw [hdb], rfl⟩

/-- The single enrichment row stored by run 1 of the concrete scenario. -/
def eW : EnrichmentRow := ⟨1, "md5", [97, 0, 88], "u", ["a"], [88]⟩

/-- Witness for the amended C2 at the spec's own example: re-ingesting the
content of `rA` for updater `"u"` in run 2 keeps the single stored row and
associates it with the new run. -/
theorem enrichment_reingest_same_updater_witness :
    List.Pairwise hashDisjoint dbRun1.enrichment ∧
    (∀ a ∈ dbRun1.uo_enrich, a.uo ≠ dbRun1.nextUoId) ∧
    eW ∈ dbRun1.enrichment ∧
    eW.hash_kind = (hashEnrichment rA).1 ∧
    eW.hash = (hashEnrichment rA).2.1 ∧
    eW.updater = "u" ∧
    ((updateEnrichments dbRun1 "u" "fp2" [rA]).1.enrichment = dbRun1.enrichment ∧
     (updateEnrichments dbRun1 "u" "fp2" [rA]).1.uo_enrich =
       dbRun1.uo_enrich ++ [⟨eW.id, "u", dbRun1.nextUoId⟩] ∧
     (updateEnrichments dbRun1 "u" "fp2" [rA]).2 = some dbRun1.nextRef) :=
  ⟨by decide, by decide, by decide, by decide, by decide, by decide,
   enrichment_reingest_same_updater dbRun1 "u" "fp2" rA eW (by decide) (by decide)
     (by decide) (by decide) (by decide) (by decide)⟩

/-- C4: every record returned by `GetEnrichment` for an updater with at
least two committed runs comes from a row associated with the run whose
sequence number is maximal among that updater's runs — a row associated
only with earlier runs is never returned. -/
theorem getEnrichment_latest_wins (db : DB) (u : String) (tags : List String)
    (hruns : 2 ≤ (db.update_operation.filter fun o => o.updater == u).length) :
    ∀ r ∈ getEnrichment db u tags,
      ∃ e ∈ db.enrichment, ∃ uo ∈ db.uo_enrich,
        uo.enrich = e.id ∧ latestId db u = some uo.uo ∧
        (∀ o ∈ db.update_operation, o.updater = u → o.id ≤ uo.uo) ∧
        r = ⟨e.tags, e.data⟩ := by
  intro r hr
  unfold getEnrichment at hr
  cases hl : latestId db u with
  | none =>
    rw [hl] at hr
    exact absurd hr (List.not_mem_nil r)
  | some lid =>
    rw [hl] at hr
    have hl2 := hl
    unfold latestId at hl2
    rcases List.mem_flatMap.mp hr with ⟨e, he, hre⟩
    rcases List.mem_filterMap.mp hre with ⟨uo, huo, hif⟩
    split at hif
    case isTrue hc =>
      simp only [Bool.and_eq_true, beq_iff_eq] at hc
      obtain ⟨⟨huu, hen⟩, _⟩ := hc
      refine ⟨e, he, uo, huo, hen, ?_, ?_, (Option.some.inj hif).symm⟩
      · rw [huu]
      · intro o ho hou
        have hmem : o.id ∈ (db.update_operation.filter fun x => x.updater == u).map (·.id) :=
          List.mem_map_of_mem _ (List.mem_filter.mpr ⟨ho, by simp [hou]⟩)
        rw [huu]
        exact (List.max?_eq_some_iff'.mp hl2).2 o.id hmem
    case isFalse => exact Option.noConfusion hif

/-- Witness for C4: after run 1 (`rA`) and run 2 (`rB`) for updater `"u"`,
every record returned under filter `["a","b"]` comes from the latest run. -/
theorem getEnrichment_latest_wins_witness :
    2 ≤ (dbRun2.update_operation.filter fun o => o.updater == "u").length ∧
    ∀ r ∈ getEnrichment dbRun2 "u" ["a", "b"],
      ∃ e ∈ dbRun2.enrichment, ∃ uo ∈ dbRun2.uo_enrich,
        uo.enrich = e.id ∧ latestId dbRun2 "u" = some uo.uo ∧
        (∀ o ∈ dbRun2.update_operation, o.updater = "u" → o.id ≤ uo.uo) ∧
        r = ⟨e.tags, e.data⟩ :=
  ⟨by decide, getEnrichment_latest_wins dbRun2 "u" ["a", "b"] (by decide)⟩

/-- C5: a record of a row associated with the latest run is returned by
`GetEnrichment` if and only if its tag set and the (non-empty) filter tag
set overlap — intersection semantics, not subset or exact match. -/
theorem getEnrichment_overlap_iff (db : DB) (u : String) (tags : List String)
    (e : EnrichmentRow) (uo : UoEnrichRow) (he : e ∈ db.enrichment)
    (huo : uo ∈ db.uo_enrich) (henr : uo.enrich = e.id)
    (hlatest : latestId db u = some uo.uo) (hne : tags ≠ []) :
    (⟨e.tags, e.data⟩ : EnrichmentRecord) ∈ getEnrichment db u tags ↔
      overlaps e.tags tags = true := by
  unfold getEnrichment
  rw [hlatest]
  constructor
  · intro hmem
    rcases List.mem_flatMap.mp hmem with ⟨e2, _, hre⟩
    rcases List.mem_filterMap.mp hre with ⟨uo2, _, hif⟩
    split at hif
    case isTrue hc =>
      simp only [Bool.and_eq_true, beq_iff_eq] at hc
      have htags : e2.tags = e.tags :=
        congrArg EnrichmentRecord.Tags (Option.some.inj hif)
      rw [← htags]
      exact hc.2
    case isFalse => exact Option.noConfusion hif
  · intro hov
    refine List.mem_flatMap.mpr ⟨e, he, List.mem_filterMap.mpr ⟨uo, huo, ?_⟩⟩
    have hc : (uo.uo == uo.uo && uo.enrich == e.id && overlaps e.tags tags) = true := by
      simp [henr, hov]
    rw [hc]
    simp

/-- The enrichment row stored by run 2 of the concrete scenario. -/
def eW2 : EnrichmentRow := ⟨2, "md5", [98, 0, 89], "u", ["b"], [89]⟩

/-- The association row linking run 2 to its record. -/
def uoW2 : UoEnrichRow := ⟨2, "u", 2⟩

/-- Witness for C5 on the concrete scenario: run 2's record is returned for
the overlapping filter `["b"]`. -/
theorem getEnrichment_overlap_iff_witness :
    eW2 ∈ dbRun2.enrichment ∧ uoW2 ∈ dbRun2.uo_enrich ∧
    uoW2.enrich = eW2.id ∧ latestId dbRun2 "u" = some uoW2.uo ∧
    (["b"] : List String) ≠ [] ∧
    ((⟨eW2.tags, eW2.data⟩ : EnrichmentRecord) ∈ getEnrichment dbRun2 "u" ["b"] ↔
      overlaps eW2.tags ["b"] = true) :=
  ⟨by decide, by decide, by decide, by decide, by decide,
   getEnrichment_overlap_iff dbRun2 "u" ["b"] eW2 uoW2 (by decide) (by decide)
     (by decide) (by decide) (by decide)⟩

/-- C1 fails on the code: the ingestion is not atomic, because the `create`
statement runs on `s.pool` instead of `tx` and therefore commits the
`update_operation` row outside the transaction.  Concretely: after a
successful run 1 for updater `"u"`, `GetEnrichment` returns run 1's record;
a second call whose batch flush (`batch.Done`) fails still leaves its run
row (fingerprint `"fp2"`) committed, so a subsequent `GetEnrichment`
resolves the failed, record-less run as latest and returns the empty set —
part of the failed run is observable and it also erases run 1's records
from view. -/
theorem updateEnrichments_failed_run_observable :
    getEnrichment dbRun1 "u" ["a", "b"] = [⟨["a"], [88]⟩] ∧
    dbFailed.update_operation.map (·.fingerprint) = ["fp1", "fp2"] ∧
    getEnrichment dbFailed "u" ["a", "b"] = [] := by
  decide

end Claircore
